import Mathlib

/-!
Verification of the cheby primality-testing web application (src/app.py).

The development shallowly embeds the core of the program:
  * the restricted AST expression evaluator (lines 10-65 of app.py),
  * the quadratic field element class (lines 68-108),
  * the non-residue search (lines 110-115), with the sympy library
    functions kronecker_symbol and nextprime modelled from their
    mathematical definitions,
  * the generic 2x2 matrix engine (lines 120-149),
  * the primality engine myisprime and is_prime (lines 151-171),
  * the empty-input check of the request handler (lines 245-251).

Python integers are embedded as Int.  The Python operator % has the sign
of the divisor, which is Int.fmod; for a positive divisor it coincides
with Int.emod.  Python floor division // is Int.fdiv.  Python floats are
embedded as rationals: the only float value any settled claim depends on
is 0.5 = 2**-1, which is exactly representable, and IEEE rounding of
further float arithmetic is not modelled (a float operation whose exact
value is not representable is mapped to a distinguished error).
-/

/-! ## Expression evaluator (app.py lines 10-65) -/

/-- Constant literal payloads that can appear in an ast.Constant node.
Python bools and None are omitted: no claim mentions them. -/
inductive PyConst where
  | int (i : Int)
  | float (q : ℚ)
  | str (s : String)
deriving DecidableEq

/-- Binary operator kinds of the host AST.  The first seven are the keys
of the _binops dictionary; the remaining kinds (bitwise and shifts) are
representative operator kinds the host grammar can produce that are not
in the dictionary. -/
inductive BinKind where
  | add | sub | mult | div | floorDiv | mod | pow
  | bitOr | bitAnd | lshift | rshift
deriving DecidableEq

/-- Unary operator kinds: the two keys of _unops plus the host kinds
Invert (~) and Not, which are not in the dictionary. -/
inductive UnKind where
  | uadd | usub | invert | notOp
deriving DecidableEq

/-- Expression tree nodes as produced by the host parser (ast.parse in
mode eval).  Besides the whitelisted shapes it can contain names,
calls, member access and comprehensions; those carry enough structure
for the claims about them. -/
inductive PyExpr where
  | const (c : PyConst)
  | binop (k : BinKind) (l r : PyExpr)
  | unaryop (k : UnKind) (x : PyExpr)
  | name (s : String)
  | call (f : PyExpr)
  | attr (x : PyExpr) (field : String)
  | comp (x : PyExpr)
deriving DecidableEq

/-- Runtime values of the evaluator: Python ints, and Python floats
(which arise from ** with a negative exponent), modelled as exact
rationals. -/
inductive Value where
  | VInt (i : Int)
  | VFloat (q : ℚ)
deriving DecidableEq

/-- Errors raised by the embedded code paths.  The source raises
ValueError for literals, operators and nodes outside the whitelist
(reaching line 60 raises AttributeError because ast.Paren does not
exist; both are modelled as unsupportedNode-style rejections),
ZeroDivisionError for division, modulo or 0-to-a-negative-power, and
ValueError for empty input in the request handler.  unmodelledFloat
marks float operations whose exact value a rational cannot represent
(never reached by any settled claim). -/
inductive Err where
  | nonIntLiteral
  | unsupportedBinop
  | unsupportedUnop
  | unsupportedNode
  | zeroDivision
  | unmodelledFloat
  | emptyInput
deriving DecidableEq

/-- Numeric view of a value as an exact rational. -/
def Value.toQ : Value → ℚ
  | .VInt i => (i : ℚ)
  | .VFloat q => q

/-- Test for the Python falsy/zero value of a number. -/
def Value.isZero : Value → Bool
  | .VInt i => i == 0
  | .VFloat q => q == 0

/-- Python numeric addition with int/float promotion. -/
def addV : Value → Value → Value
  | .VInt a, .VInt b => .VInt (a + b)
  | l, r => .VFloat (l.toQ + r.toQ)

/-- Python numeric subtraction with int/float promotion. -/
def subV : Value → Value → Value
  | .VInt a, .VInt b => .VInt (a - b)
  | l, r => .VFloat (l.toQ - r.toQ)

/-- Python numeric multiplication with int/float promotion. -/
def mulV : Value → Value → Value
  | .VInt a, .VInt b => .VInt (a * b)
  | l, r => .VFloat (l.toQ * r.toQ)

/-- Python floor division on numbers: on ints it is Int.fdiv, on floats
it takes the floor of the exact quotient.  The zero test is done by the
caller. -/
def floordivV : Value → Value → Value
  | .VInt a, .VInt b => .VInt (Int.fdiv a b)
  | l, r => .VFloat ((⌊l.toQ / r.toQ⌋ : Int) : ℚ)

/-- Python % on numbers: the remainder has the sign of the divisor,
which on ints is Int.fmod.  The zero test is done by the caller. -/
def modV : Value → Value → Value
  | .VInt a, .VInt b => .VInt (Int.fmod a b)
  | l, r => .VFloat (l.toQ - r.toQ * (⌊l.toQ / r.toQ⌋ : Int))

/-- The single function operator.floordiv is bound to in _binops, for
both the Div and the FloorDiv keys: it raises ZeroDivisionError on a
zero divisor and floor-divides otherwise. -/
def floordivOp (l r : Value) : Except Err Value :=
  if r.isZero then .error .zeroDivision else .ok (floordivV l r)

/-- Bound form of operator.mod. -/
def modOp (l r : Value) : Except Err Value :=
  if r.isZero then .error .zeroDivision else .ok (modV l r)

/-- Bound form of operator.pow on Python numbers.  On ints with a
non-negative exponent the result is an int; with a negative exponent
Python returns the float 1 / base-to-the-positive-power (raising
ZeroDivisionError for base 0).  A float base with an int exponent is
exact rational exponentiation; a genuinely fractional exponent is not
representable exactly and maps to unmodelledFloat. -/
def powOp (l r : Value) : Except Err Value :=
  match l, r with
  | .VInt a, .VInt b =>
      if 0 ≤ b then .ok (.VInt (a ^ b.toNat))
      else if a = 0 then .error .zeroDivision
      else .ok (.VFloat (1 / (a : ℚ) ^ (-b).toNat))
  | .VFloat q, .VInt b =>
      if q = 0 ∧ b < 0 then .error .zeroDivision
      else .ok (.VFloat (q ^ b))
  | l, .VFloat e =>
      if e.den = 1 then
        (if l.toQ = 0 ∧ e < 0 then .error .zeroDivision
         else .ok (.VFloat (l.toQ ^ e.num)))
      else .error .unmodelledFloat

/-- The _binops dictionary (app.py lines 11-19): maps the seven
whitelisted AST binary operator kinds to Python functions; both Div and
FloorDiv are bound to operator.floordiv.  Kinds outside the dictionary
map to none. -/
def _binops : BinKind → Option (Value → Value → Except Err Value)
  | .add => some (fun l r => .ok (addV l r))
  | .sub => some (fun l r => .ok (subV l r))
  | .mult => some (fun l r => .ok (mulV l r))
  | .div => some floordivOp
  | .floorDiv => some floordivOp
  | .mod => some modOp
  | .pow => some powOp
  | _ => none

/-- Python unary + and - on numbers (operator.pos and operator.neg). -/
def negV : Value → Value
  | .VInt a => .VInt (-a)
  | .VFloat q => .VFloat (-q)

/-- The _unops dictionary (app.py lines 20-23). -/
def _unops : UnKind → Option (Value → Value)
  | .uadd => some (fun v => v)
  | .usub => some negV
  | _ => none

/-- The recursive evaluator _evaluate inside parse_int_expr (app.py
lines 36-63), on the already-parsed tree.  An ast.Constant with a
non-int payload raises ValueError (line 43); a BinOp or UnaryOp first
looks its operator kind up in the dictionary and raises if absent
(lines 47-48, 55-56), then evaluates the operands left to right and
applies the bound function; every other node kind falls through to the
rejection at lines 60-63. -/
def _evaluate : PyExpr → Except Err Value
  | .const (.int i) => .ok (.VInt i)
  | .const _ => .error .nonIntLiteral
  | .binop k l r =>
      match _binops k with
      | none => .error .unsupportedBinop
      | some f => do
          let lv ← _evaluate l
          let rv ← _evaluate r
          f lv rv
  | .unaryop k x =>
      match _unops k with
      | none => .error .unsupportedUnop
      | some f => do
          let xv ← _evaluate x
          pure (f xv)
  | .name _ => .error .unsupportedNode
  | .call _ => .error .unsupportedNode
  | .attr _ _ => .error .unsupportedNode
  | .comp _ => .error .unsupportedNode

/-- A tree contains a construct outside the evaluator whitelist: a
non-int literal, an operator kind absent from the dictionaries, or a
node kind other than Expression, Constant, BinOp, UnaryOp. -/
def containsUnsupported : PyExpr → Bool
  | .const (.int _) => false
  | .const _ => true
  | .binop k l r =>
      (_binops k).isNone || containsUnsupported l || containsUnsupported r
  | .unaryop k x => (_unops k).isNone || containsUnsupported x
  | .name _ => true
  | .call _ => true
  | .attr _ _ => true
  | .comp _ => true

/-- Whether an evaluation result is a success. -/
def evalOk : Except Err Value → Bool
  | .ok _ => true
  | .error _ => false

/-- The request handler (app.py lines 245-251) raises the empty-input
ValueError before calling parse_int_expr.  The parse step (ast.parse)
is passed as a parameter so that quantifying over it expresses that the
check happens before parsing is attempted. -/
def index_handle (parse : String → Except Err PyExpr) (s : String) :
    Except Err Value :=
  if s = "" then .error .emptyInput else (parse s).bind _evaluate

/-! ## Helper lemmas about Python floor division and modulo -/

/-- Bounds of Int.fmod for a negative divisor: the remainder has the
sign of the divisor. -/
lemma fmod_bounds_neg (a b : ℤ) (hb : b < 0) :
    b < Int.fmod a b ∧ Int.fmod a b ≤ 0 := by
  cases b with
  | ofNat k => exact absurd hb (not_lt.mpr (Int.ofNat_nonneg k))
  | negSucc n =>
    cases a with
    | ofNat m =>
      cases m with
      | zero =>
        have h0 : Int.fmod (Int.ofNat 0) (Int.negSucc n) = 0 := rfl
        rw [h0]
        simp only [Int.negSucc_eq]
        omega
      | succ m =>
        have hmod : m % Nat.succ n < Nat.succ n := Nat.mod_lt m (Nat.succ_pos n)
        simp only [Int.fmod, Int.subNatNat_eq_coe, Int.negSucc_eq]
        omega
    | negSucc m =>
      have hmod : Nat.succ m % Nat.succ n < Nat.succ n :=
        Nat.mod_lt _ (Nat.succ_pos n)
      simp only [Int.fmod, Int.negSucc_eq, Int.ofNat_eq_coe]
      omega

/-- Python floor division on integers, Int.fdiv, is the floor of the
exact rational quotient. -/
lemma fdiv_eq_floor (a b : ℤ) (h : b ≠ 0) :
    Int.fdiv a b = ⌊(a : ℚ) / (b : ℚ)⌋ := by
  have key : Int.fmod a b + b * Int.fdiv a b = a := Int.fmod_add_fdiv a b
  have hbq : (b : ℚ) ≠ 0 := Int.cast_ne_zero.mpr h
  rw [eq_comm, Int.floor_eq_iff]
  rcases h.lt_or_lt with hb | hb
  · obtain ⟨hr1, hr2⟩ := fmod_bounds_neg a b hb
    have hbq' : (b : ℚ) < 0 := by exact_mod_cast hb
    constructor
    · rw [le_div_iff_of_neg hbq']
      exact_mod_cast (by nlinarith : a ≤ (Int.fdiv a b) * b)
    · rw [div_lt_iff_of_neg hbq']
      exact_mod_cast (by nlinarith : ((Int.fdiv a b) + 1) * b < a)
  · have hr1 : 0 ≤ Int.fmod a b := by
      rw [Int.fmod_eq_emod a hb.le]; exact Int.emod_nonneg a h
    have hr2 : Int.fmod a b < b := by
      rw [Int.fmod_eq_emod a hb.le]; exact Int.emod_lt_of_pos a hb
    have hbq' : (0 : ℚ) < (b : ℚ) := by exact_mod_cast hb
    constructor
    · rw [le_div_iff₀ hbq']
      exact_mod_cast (by nlinarith : (Int.fdiv a b) * b ≤ a)
    · rw [div_lt_iff₀ hbq']
      exact_mod_cast (by nlinarith : a < ((Int.fdiv a b) + 1) * b)

/-! ## Claims about the expression evaluator -/

/-- C2, counterexample.  The tree the host parser builds for the input
string 1//0 + x contains the unsupported Name node x, yet evaluating it
produces the division-by-zero error of the left operand, not the
unsupported-construct rejection: an evaluation step ran before the
unsupported construct elsewhere in the tree was rejected. -/
theorem c2_counterexample :
    containsUnsupported
        (PyExpr.binop .add
          (PyExpr.binop .floorDiv (.const (.int 1)) (.const (.int 0)))
          (PyExpr.name "x")) = true ∧
    _evaluate
        (PyExpr.binop .add
          (PyExpr.binop .floorDiv (.const (.int 1)) (.const (.int 0)))
          (PyExpr.name "x")) = .error .zeroDivision ∧
    Err.zeroDivision ≠ Err.unsupportedNode := by
  refine ⟨rfl, rfl, by decide⟩

/-- C2, amended.  Any tree containing a construct outside the whitelist
is rejected when evaluation reaches it: evaluation of such a tree never
succeeds (the unsupported construct itself is never evaluated), though
sibling whitelisted sub-expressions that come earlier in evaluation
order may be evaluated before the rejection surfaces. -/
theorem c2_unsupported_never_succeeds (t : PyExpr)
    (h : containsUnsupported t = true) : evalOk (_evaluate t) = false := by
  induction t with
  | const c => cases c <;> simp_all [containsUnsupported, _evaluate, evalOk]
  | binop k l r ihl ihr =>
    simp only [containsUnsupported, Bool.or_eq_true] at h
    simp only [_evaluate]
    cases hb : _binops k with
    | none => rfl
    | some f =>
      have hlr : containsUnsupported l = true ∨ containsUnsupported r = true := by
        rcases h with (h | h) | h
        · rw [hb] at h; simp at h
        · exact Or.inl h
        · exact Or.inr h
      cases hl : _evaluate l with
      | error e => rfl
      | ok v =>
        rcases hlr with h | h
        · have := ihl h
          rw [hl] at this
          simp [evalOk] at this
        · cases hr : _evaluate r with
          | error e => rfl
          | ok w =>
            have := ihr h
            rw [hr] at this
            simp [evalOk] at this
  | unaryop k x ih =>
    simp only [containsUnsupported, Bool.or_eq_true] at h
    simp only [_evaluate]
    cases hu : _unops k with
    | none => rfl
    | some f =>
      have hx' : containsUnsupported x = true := by
        rcases h with h | h
        · rw [hu] at h; simp at h
        · exact h
      have := ih hx'
      cases hx : _evaluate x with
      | error e => rfl
      | ok v =>
        rw [hx] at this
        simp [evalOk] at this
  | name s => rfl
  | call f ih => rfl
  | attr x s ih => rfl
  | comp x ih => rfl

/-- C2, witness for the amended theorem at the concrete unsupported
input __import__, a Name node. -/
theorem c2_witness :
    containsUnsupported (PyExpr.name "__import__") = true ∧
    evalOk (_evaluate (PyExpr.name "__import__")) = false :=
  ⟨rfl, c2_unsupported_never_succeeds (PyExpr.name "__import__") rfl⟩

/-- C4.  On the tree the host parser builds for 2**-1, the evaluator
does not fail with a DomainError: operator.pow on an int with a
negative int exponent returns the Python float 0.5, a non-integer
result, which the evaluator propagates as a success.  This contradicts
both halves of the claim (and the declared int return type of
parse_int_expr in the source). -/
theorem c4_negative_exponent_yields_float :
    _evaluate
        (PyExpr.binop .pow (.const (.int 2))
          (PyExpr.unaryop .usub (.const (.int 1))))
      = .ok (.VFloat (1 / 2)) ∧
    ∀ i : Int, Value.VFloat (1 / 2) ≠ Value.VInt i := by
  constructor
  · rfl
  · intro i hc
    cases hc

/-- C7.  The Div and FloorDiv operator kinds are bound to the very same
floor-division function; on integer operands with a nonzero divisor
both produce the floor of the exact quotient; and 7//2 evaluates to 3. -/
theorem c7_div_floordiv_same_floor :
    _binops BinKind.div = _binops BinKind.floorDiv ∧
    (∀ a b : Int, b ≠ 0 →
      _evaluate (PyExpr.binop .div (.const (.int a)) (.const (.int b)))
        = .ok (.VInt ⌊(a : ℚ) / (b : ℚ)⌋) ∧
      _evaluate (PyExpr.binop .floorDiv (.const (.int a)) (.const (.int b)))
        = .ok (.VInt ⌊(a : ℚ) / (b : ℚ)⌋)) ∧
    _evaluate (PyExpr.binop .floorDiv (.const (.int 7)) (.const (.int 2)))
      = .ok (.VInt 3) := by
  refine ⟨rfl, ?_, rfl⟩
  intro a b hb
  have hz : (Value.VInt b).isZero = false := by
    simp [Value.isZero, hb]
  have hfl : floordivOp (.VInt a) (.VInt b) = .ok (.VInt ⌊(a : ℚ) / (b : ℚ)⌋) := by
    simp [floordivOp, hz, floordivV, fdiv_eq_floor a b hb]
  exact ⟨hfl, hfl⟩

/-- C7, witness at the concrete operands 7 and 2. -/
theorem c7_witness :
    _evaluate (PyExpr.binop .div (.const (.int 7)) (.const (.int 2)))
      = .ok (.VInt ⌊(7 : ℚ) / (2 : ℚ)⌋) :=
  (c7_div_floordiv_same_floor.2.1 7 2 (by decide)).1

/-- C9.  On the empty input string the request handler fails with the
empty-input error; the parse step, passed here as an arbitrary
function, is never consulted, so the error is detected before parsing
is attempted. -/
theorem c9_empty_input_before_parse
    (parse : String → Except Err PyExpr) :
    index_handle parse "" = .error .emptyInput := by
  simp [index_handle]

/-! ## Quadratic field elements (app.py lines 68-108) -/

/-- The QuadraticFieldElement class: represents u + v*sqrt(c) modulo n.
Structural data are the two components and the carried parameters c and
n. -/
structure QuadraticFieldElement where
  u : Int
  v : Int
  c : Int
  n : Int
deriving DecidableEq

/-- The class constructor (lines 69-73): reduces both components modulo
n with the Python % operator (sign of the divisor; the program only
builds elements with a positive modulus, where the result is the
canonical representative in [0, n)).  Python raises on a zero modulus;
the embedding is total and every claim about elements assumes a
positive modulus. -/
def QuadraticFieldElement.make (u v c n : Int) : QuadraticFieldElement :=
  ⟨Int.fmod u n, Int.fmod v n, c, n⟩

/-- Method add (lines 78-82): componentwise, parameters taken from the
left operand.  The source asserts that both operands carry equal c and
equal n; the program never violates that, and every claim about mixed
operands carries it as a hypothesis. -/
instance : Add QuadraticFieldElement :=
  ⟨fun a b => .make (a.u + b.u) (a.v + b.v) a.c a.n⟩

/-- Method neg (lines 89-90). -/
instance : Neg QuadraticFieldElement :=
  ⟨fun a => .make (-a.u) (-a.v) a.c a.n⟩

/-- Method sub (lines 84-87): addition of the negation. -/
instance : Sub QuadraticFieldElement :=
  ⟨fun a b => a + (-b)⟩

/-- Method mul (lines 92-98): the quadratic extension product, each
component reduced modulo n as computed and once more by the
constructor, parameters from the left operand. -/
instance : Mul QuadraticFieldElement :=
  ⟨fun a b =>
    .make (Int.fmod (a.u * b.u + a.v * b.v * a.c) a.n)
      (Int.fmod (a.u * b.v + a.v * b.u) a.n) a.c a.n⟩

/-- Function sqrtc (lines 117-118): the formal square root of c. -/
def sqrtc (c n : Int) : QuadraticFieldElement :=
  .make 0 1 c n

/-! ## 2x2 matrix engine (app.py lines 120-149) -/

/-- A 2x2 matrix [[a, b], [c, d]] over ring elements, the shape the
matrix engine manipulates as a list of two rows. -/
structure Mat2 (α : Type) where
  a : α
  b : α
  c : α
  d : α
deriving DecidableEq

/-- mat_mul on two matrices (lines 128-132), with the exact formula of
the source. -/
def mat_mul [Add α] [Mul α] (A B : Mat2 α) : Mat2 α :=
  ⟨A.a * B.a + A.b * B.c, A.a * B.b + A.b * B.d,
   A.c * B.a + A.d * B.c, A.c * B.b + A.d * B.d⟩

/-- mat_mul applied to a 2-vector (line 133), the branch taken when the
second argument is not a list of rows. -/
def mat_vec [Add α] [Mul α] (A : Mat2 α) (x y : α) : α × α :=
  (A.a * x + A.b * y, A.c * x + A.d * y)

/-- The while loop of mat_pow (lines 144-148): least-significant-bit
first square and multiply.  For positive e the Python tests e & 1 and
shifts e >>= 1, which on positive integers are e % 2 and floor division
by two; a non-positive e never enters the loop. -/
def mat_pow_go [Add α] [Mul α] (base result : Mat2 α) (e : Int) : Mat2 α :=
  if h : 0 < e then
    mat_pow_go (mat_mul base base)
      (if e % 2 = 1 then mat_mul base result else result) (e / 2)
  else result
termination_by e.toNat
decreasing_by omega

/-- mat_pow on a matrix of plain integers (lines 135-136 and 142-149):
the accumulator starts at the literal identity [[1, 0], [0, 1]]. -/
def mat_pow_int (M : Mat2 Int) (e : Int) : Mat2 Int :=
  mat_pow_go M ⟨1, 0, 0, 1⟩ e

/-- mat_pow on a matrix of quadratic field elements (lines 137-149):
the accumulator is rebuilt as the identity with the parameters read off
the first entry of the base matrix. -/
def mat_pow (M : Mat2 QuadraticFieldElement) (e : Int) :
    Mat2 QuadraticFieldElement :=
  mat_pow_go M
    ⟨.make 1 0 M.a.c M.a.n, .make 0 0 M.a.c M.a.n,
     .make 0 0 M.a.c M.a.n, .make 1 0 M.a.c M.a.n⟩ e

/-! ## Primality engine (app.py lines 110-171) -/

/-- xmat (lines 120-125) on a field element: the companion matrix
[[2a, -1], [1, 0]] with the constants expressed over the parameters of
a.  The first parameter is unused by the source body and kept for
signature fidelity. -/
def xmat (_n : Int) (a : QuadraticFieldElement) : Mat2 QuadraticFieldElement :=
  ⟨a + a, .make (-1) 0 a.c a.n, .make 1 0 a.c a.n, .make 0 0 a.c a.n⟩

/-- myisprime (lines 151-158) on a field element a (the only way the
program calls it): raise the companion matrix to the n, apply it to the
vector (a, 1), and compare the second component with the target
1 - sqrt(c), built directly as the element (1, -1) with the parameters
(a.c, n). -/
def myisprime (n : Int) (a : QuadraticFieldElement) : Bool :=
  let M := xmat n a
  let Mn := mat_pow M n
  let one := QuadraticFieldElement.make 1 0 a.c a.n
  let xp := mat_vec Mn a one
  let target := QuadraticFieldElement.make 1 (-1) a.c n
  decide (xp.2 = target)

/-- Modelled from the spec: sympy.ntheory.primetest.is_square, the
perfect-square test on integers, true exactly on squares (and false on
negatives). -/
def is_square (n : Int) : Bool :=
  decide (0 ≤ n) && (Nat.sqrt n.toNat * Nat.sqrt n.toNat == n.toNat)

/-- Modelled from the spec: the Legendre symbol of a modulo an odd
prime p, by quadratic-residue status: 0 when p divides a, 1 when a is a
nonzero square modulo p, otherwise -1. -/
def legendreOdd (a : Int) (p : ℕ) : Int :=
  if a % (p : Int) = 0 then 0
  else if (List.range p).any
      (fun x => ((x * x : ℕ) : Int) % (p : Int) == a % (p : Int)) then 1
  else -1

/-- Modelled from the spec: the Kronecker symbol at 2, the character
chi_8: 0 on evens, 1 when a is congruent to 1 or 7 modulo 8, else -1. -/
def kron2 (a : Int) : Int :=
  if a % 2 = 0 then 0 else if a % 8 = 1 ∨ a % 8 = 7 then 1 else -1

/-- Modelled from the spec: sympy.kronecker_symbol a n, the Kronecker
symbol, the completely multiplicative extension of the Legendre symbol:
at 0 it is 1 exactly on the units, the sign part is -1 exactly when
both arguments are negative, and the value on a positive modulus is the
product over its prime factorization with the chi_8 character at the
prime 2. -/
def kronecker_symbol (a n : Int) : Int :=
  if n = 0 then (if a = 1 ∨ a = -1 then 1 else 0)
  else
    (if n < 0 ∧ a < 0 then -1 else 1) *
      ((Nat.primeFactorsList n.natAbs).map
        (fun p => if p = 2 then kron2 a else legendreOdd a p)).prod

/-- Bounded upward scan for the first prime at or above start.  The
fuel is always chosen large enough (via the Bertrand prime bound) that
the zero-fuel arm is never reached. -/
def findPrimeAbove : ℕ → ℕ → ℕ
  | start, 0 => start
  | start, fuel + 1 =>
      if Nat.Prime start then start else findPrimeAbove (start + 1) fuel

/-- Modelled from the spec: sympy.nextprime p, the smallest prime
strictly greater than p. -/
def nextprime (p : ℕ) : ℕ :=
  findPrimeAbove (p + 1) (p + 3)

/-- The while loop of oddprime (lines 110-115), with explicit fuel:
starting from p, return the current candidate when its Kronecker symbol
relative to n is -1, otherwise move to the next prime.  The source loop
is unbounded; the fuel makes the embedding total, and the claims state
that sufficient fuel exists whenever an odd prime with symbol -1
exists. -/
def oddprime_go (n : Int) : ℕ → ℕ → Option ℕ
  | _, 0 => none
  | p, fuel + 1 =>
      if kronecker_symbol (p : Int) n = -1 then some p
      else oddprime_go n (nextprime p) fuel

/-- oddprime (lines 110-115): scan odd primes upward from 3 for the
first whose Kronecker symbol relative to n is -1. -/
def oddprime (n : Int) (fuel : ℕ) : Option ℕ :=
  oddprime_go n 3 fuel

/-- is_prime (lines 160-171), with the fuel of the non-residue search
made explicit: trivial filtering, then the quadratic-extension test at
a = 1 + sqrt(c) for the found non-residue c. -/
def is_prime (fuel : ℕ) (n : Int) : Option Bool :=
  if n < 2 then some false
  else if n = 2 then some true
  else if Int.fmod n 2 = 0 then some false
  else if is_square n then some false
  else
    match oddprime n fuel with
    | none => none
    | some c => some (myisprime n (.make 1 1 (c : Int) n))

/-! ## Mathematical model: pairs over ZMod m with the quadratic product

The field-element arithmetic of the source, which reduces Int
components with % after every step, is related to a clean commutative
ring of pairs over ZMod m.  All algebraic reasoning (associativity,
matrix powers) happens there and is transported back through the
canonical-representative property of the source elements. -/

/-- A pair (u, v) over ZMod m representing u + v*sqrt(c), with the
quadratic-extension product relative to the fixed class cz of c. -/
@[ext]
structure QP (m : ℕ) (cz : ZMod m) where
  u : ZMod m
  v : ZMod m
deriving DecidableEq

instance {m : ℕ} {cz : ZMod m} : Add (QP m cz) :=
  ⟨fun x y => ⟨x.u + y.u, x.v + y.v⟩⟩

instance {m : ℕ} {cz : ZMod m} : Neg (QP m cz) :=
  ⟨fun x => ⟨-x.u, -x.v⟩⟩

instance {m : ℕ} {cz : ZMod m} : Mul (QP m cz) :=
  ⟨fun x y => ⟨x.u * y.u + x.v * y.v * cz, x.u * y.v + x.v * y.u⟩⟩

instance {m : ℕ} {cz : ZMod m} : Zero (QP m cz) :=
  ⟨⟨0, 0⟩⟩

instance {m : ℕ} {cz : ZMod m} : One (QP m cz) :=
  ⟨⟨1, 0⟩⟩

@[simp] lemma QP.add_u {m : ℕ} {cz : ZMod m} (x y : QP m cz) :
    (x + y).u = x.u + y.u := rfl

@[simp] lemma QP.add_v {m : ℕ} {cz : ZMod m} (x y : QP m cz) :
    (x + y).v = x.v + y.v := rfl

@[simp] lemma QP.neg_u {m : ℕ} {cz : ZMod m} (x : QP m cz) :
    (-x).u = -x.u := rfl

@[simp] lemma QP.neg_v {m : ℕ} {cz : ZMod m} (x : QP m cz) :
    (-x).v = -x.v := rfl

@[simp] lemma QP.mul_u {m : ℕ} {cz : ZMod m} (x y : QP m cz) :
    (x * y).u = x.u * y.u + x.v * y.v * cz := rfl

@[simp] lemma QP.mul_v {m : ℕ} {cz : ZMod m} (x y : QP m cz) :
    (x * y).v = x.u * y.v + x.v * y.u := rfl

@[simp] lemma QP.zero_u {m : ℕ} {cz : ZMod m} : (0 : QP m cz).u = 0 := rfl

@[simp] lemma QP.zero_v {m : ℕ} {cz : ZMod m} : (0 : QP m cz).v = 0 := rfl

@[simp] lemma QP.one_u {m : ℕ} {cz : ZMod m} : (1 : QP m cz).u = 1 := rfl

@[simp] lemma QP.one_v {m : ℕ} {cz : ZMod m} : (1 : QP m cz).v = 0 := rfl

instance {m : ℕ} {cz : ZMod m} : CommRing (QP m cz) where
  add := (· + ·)
  add_assoc x y z := by ext <;> simp <;> ring
  zero := 0
  zero_add x := by ext <;> simp
  add_zero x := by ext <;> simp
  add_comm x y := by ext <;> simp <;> ring
  mul := (· * ·)
  left_distrib x y z := by ext <;> simp <;> ring
  right_distrib x y z := by ext <;> simp <;> ring
  zero_mul x := by ext <;> simp
  mul_zero x := by ext <;> simp
  mul_assoc x y z := by ext <;> simp <;> ring
  one := 1
  one_mul x := by ext <;> simp
  mul_one x := by ext <;> simp
  neg := (- ·)
  neg_add_cancel x := by ext <;> simp
  mul_comm x y := by ext <;> simp <;> ring
  nsmul := nsmulRec
  zsmul := zsmulRec

/-! ## Monoid structure on 2x2 matrices over a commutative ring -/

instance {α : Type} [Add α] [Mul α] : Mul (Mat2 α) := ⟨mat_mul⟩

instance {α : Type} [Zero α] [One α] : One (Mat2 α) := ⟨⟨1, 0, 0, 1⟩⟩

/-- mat_mul is the multiplication of the Mat2 monoid. -/
lemma mat_mul_eq {α : Type} [Add α] [Mul α] (A B : Mat2 α) :
    mat_mul A B = A * B := rfl

lemma Mat2.entries_eq_iff {α : Type} (A B : Mat2 α) :
    A = B ↔ A.a = B.a ∧ A.b = B.b ∧ A.c = B.c ∧ A.d = B.d := by
  constructor
  · rintro rfl; exact ⟨rfl, rfl, rfl, rfl⟩
  · rintro ⟨h1, h2, h3, h4⟩; cases A; cases B; simp_all

@[simp] lemma Mat2.mul_a {α : Type} [Add α] [Mul α] (A B : Mat2 α) :
    (A * B).a = A.a * B.a + A.b * B.c := rfl

@[simp] lemma Mat2.mul_b {α : Type} [Add α] [Mul α] (A B : Mat2 α) :
    (A * B).b = A.a * B.b + A.b * B.d := rfl

@[simp] lemma Mat2.mul_c {α : Type} [Add α] [Mul α] (A B : Mat2 α) :
    (A * B).c = A.c * B.a + A.d * B.c := rfl

@[simp] lemma Mat2.mul_d {α : Type} [Add α] [Mul α] (A B : Mat2 α) :
    (A * B).d = A.c * B.b + A.d * B.d := rfl

@[simp] lemma Mat2.one_a {α : Type} [Zero α] [One α] : (1 : Mat2 α).a = 1 := rfl

@[simp] lemma Mat2.one_b {α : Type} [Zero α] [One α] : (1 : Mat2 α).b = 0 := rfl

@[simp] lemma Mat2.one_c {α : Type} [Zero α] [One α] : (1 : Mat2 α).c = 0 := rfl

@[simp] lemma Mat2.one_d {α : Type} [Zero α] [One α] : (1 : Mat2 α).d = 1 := rfl

instance {R : Type} [CommRing R] : Monoid (Mat2 R) where
  mul := (· * ·)
  one := 1
  mul_assoc A B C := by
    rw [Mat2.entries_eq_iff]
    refine ⟨?_, ?_, ?_, ?_⟩ <;> simp <;> ring
  one_mul A := by
    rw [Mat2.entries_eq_iff]
    refine ⟨?_, ?_, ?_, ?_⟩ <;> simp
  mul_one A := by
    rw [Mat2.entries_eq_iff]
    refine ⟨?_, ?_, ?_, ?_⟩ <;> simp

/-- Correctness of the square-and-multiply loop over any commutative
ring of entries: running the loop multiplies the accumulator by the
e-th power of the base. -/
lemma mat_pow_go_pow {R : Type} [CommRing R]
    (e : Int) (base result : Mat2 R) (he : 0 ≤ e) :
    mat_pow_go base result e = base ^ e.toNat * result := by
  generalize hk : e.toNat = k
  induction k using Nat.strong_induction_on generalizing base result e with
  | _ k ih =>
    rw [mat_pow_go]
    by_cases hpos : 0 < e
    · have hk2 : (e / 2).toNat < k := by omega
      have hrec := ih _ hk2 (e / 2) (mat_mul base base)
        (if e % 2 = 1 then mat_mul base result else result) (by omega) rfl
      simp only [hpos, dite_true]
      rw [hrec]
      have hbb : mat_mul base base = base ^ 2 := by rw [mat_mul_eq, sq]
      rcases Int.emod_two_eq e with hm | hm
      · have hke : k = 2 * (e / 2).toNat := by omega
        simp only [hm]
        norm_num
        rw [hbb, ← pow_mul, hke]
      · have hke : k = 2 * (e / 2).toNat + 1 := by omega
        simp only [hm]
        norm_num
        rw [hbb, ← pow_mul, mat_mul_eq, hke, pow_succ, mul_assoc]
    · have he0 : e = 0 := by omega
      simp only [hpos, dite_false]
      rw [← hk, he0]
      simp

/-! ## Field-element bookkeeping lemmas -/

@[simp] lemma QuadraticFieldElement.make_u (u v c n : Int) :
    (QuadraticFieldElement.make u v c n).u = Int.fmod u n := rfl

@[simp] lemma QuadraticFieldElement.make_v (u v c n : Int) :
    (QuadraticFieldElement.make u v c n).v = Int.fmod v n := rfl

@[simp] lemma QuadraticFieldElement.make_c (u v c n : Int) :
    (QuadraticFieldElement.make u v c n).c = c := rfl

@[simp] lemma QuadraticFieldElement.make_n (u v c n : Int) :
    (QuadraticFieldElement.make u v c n).n = n := rfl

lemma QuadraticFieldElement.add_def (x y : QuadraticFieldElement) :
    x + y = .make (x.u + y.u) (x.v + y.v) x.c x.n := rfl

lemma QuadraticFieldElement.neg_def (x : QuadraticFieldElement) :
    -x = .make (-x.u) (-x.v) x.c x.n := rfl

lemma QuadraticFieldElement.sub_def (x y : QuadraticFieldElement) :
    x - y = x + (-y) := rfl

lemma QuadraticFieldElement.mul_def (x y : QuadraticFieldElement) :
    x * y = .make (Int.fmod (x.u * y.u + x.v * y.v * x.c) x.n)
      (Int.fmod (x.u * y.v + x.v * y.u) x.n) x.c x.n := rfl

/-- Extensionality for field elements: all four fields. -/
lemma QuadraticFieldElement.fields_eq_iff (x y : QuadraticFieldElement) :
    x = y ↔ x.u = y.u ∧ x.v = y.v ∧ x.c = y.c ∧ x.n = y.n := by
  constructor
  · rintro rfl; exact ⟨rfl, rfl, rfl, rfl⟩
  · rintro ⟨h1, h2, h3, h4⟩; cases x; cases y; simp_all

/-- Canonical reduction of an element: both components lie in the
interval [0, n) for the modulus n the element carries. -/
def Reduced (q : QuadraticFieldElement) : Prop :=
  0 ≤ q.u ∧ q.u < q.n ∧ 0 ≤ q.v ∧ q.v < q.n

/-- An element carries the parameters c and n. -/
def Pq (c n : Int) (q : QuadraticFieldElement) : Prop :=
  q.c = c ∧ q.n = n

instance (c n : Int) (q : QuadraticFieldElement) : Decidable (Pq c n q) :=
  inferInstanceAs (Decidable (_ ∧ _))

instance (q : QuadraticFieldElement) : Decidable (Reduced q) :=
  inferInstanceAs (Decidable (_ ∧ _ ∧ _ ∧ _))

lemma fmod_mem (a n : Int) (hn : 0 < n) :
    0 ≤ Int.fmod a n ∧ Int.fmod a n < n := by
  rw [Int.fmod_eq_emod a hn.le]
  exact ⟨Int.emod_nonneg a hn.ne.symm, Int.emod_lt_of_pos a hn⟩

lemma make_reduced (u v c n : Int) (hn : 0 < n) :
    Reduced (QuadraticFieldElement.make u v c n) := by
  obtain ⟨h1, h2⟩ := fmod_mem u n hn
  obtain ⟨h3, h4⟩ := fmod_mem v n hn
  exact ⟨h1, h2, h3, h4⟩

/-! ## Transfer to the ZMod model -/

/-- The class of an element in the pair model over ZMod n.toNat, for
the ambient parameters c and n. -/
def qpOf (c n : Int) (q : QuadraticFieldElement) :
    QP n.toNat ((c : Int) : ZMod n.toNat) :=
  ⟨((q.u : Int) : ZMod n.toNat), ((q.v : Int) : ZMod n.toNat)⟩

lemma intCast_emod_self (a : Int) (m : ℕ) :
    ((a % (m : Int) : Int) : ZMod m) = (a : ZMod m) := by
  conv_rhs => rw [← Int.emod_add_ediv a m]
  push_cast [ZMod.natCast_self]
  ring

lemma intCast_fmod_self (a n : Int) (hn : 0 ≤ n) :
    ((Int.fmod a n : Int) : ZMod n.toNat) = (a : ZMod n.toNat) := by
  rw [Int.fmod_eq_emod a hn]
  have hm : ((n.toNat : ℕ) : Int) = n := Int.toNat_of_nonneg hn
  rw [← hm]
  exact intCast_emod_self a n.toNat

lemma qpOf_make (u v c n : Int) (hn : 0 ≤ n) :
    qpOf c n (.make u v c n) = ⟨(u : ZMod n.toNat), (v : ZMod n.toNat)⟩ := by
  simp only [qpOf, QuadraticFieldElement.make_u, QuadraticFieldElement.make_v]
  rw [intCast_fmod_self u n hn, intCast_fmod_self v n hn]

lemma qpOf_add (c n : Int) (hn : 0 ≤ n) (x y : QuadraticFieldElement)
    (hx : x.n = n) :
    qpOf c n (x + y) = qpOf c n x + qpOf c n y := by
  rw [QuadraticFieldElement.add_def, QP.ext_iff]
  subst hx
  constructor
  · simp only [qpOf, QuadraticFieldElement.make_u, QP.add_u]
    rw [intCast_fmod_self _ _ hn]
    push_cast
    ring
  · simp only [qpOf, QuadraticFieldElement.make_v, QP.add_v]
    rw [intCast_fmod_self _ _ hn]
    push_cast
    ring

lemma qpOf_mul (c n : Int) (hn : 0 ≤ n) (x y : QuadraticFieldElement)
    (hx : x.n = n) (hxc : x.c = c) :
    qpOf c n (x * y) = qpOf c n x * qpOf c n y := by
  rw [QuadraticFieldElement.mul_def, QP.ext_iff]
  subst hx
  subst hxc
  constructor
  · simp only [qpOf, QuadraticFieldElement.make_u, QP.mul_u]
    rw [intCast_fmod_self _ _ hn, intCast_fmod_self _ _ hn]
    push_cast
    ring
  · simp only [qpOf, QuadraticFieldElement.make_v, QP.mul_v]
    rw [intCast_fmod_self _ _ hn, intCast_fmod_self _ _ hn]
    push_cast
    ring

/-- Elements with equal parameters, both reduced, and equal classes in
the ZMod model are equal. -/
lemma qpOf_inj (c n : Int) (hn : 0 < n) (x y : QuadraticFieldElement)
    (hx : Pq c n x) (hy : Pq c n y) (rx : Reduced x) (ry : Reduced y)
    (h : qpOf c n x = qpOf c n y) : x = y := by
  have hm : ((n.toNat : ℕ) : Int) = n := Int.toNat_of_nonneg hn.le
  obtain ⟨hu, hv⟩ := QP.mk.injEq _ _ _ _ ▸ h
  rw [QuadraticFieldElement.fields_eq_iff]
  refine ⟨?_, ?_, hx.1.trans hy.1.symm, hx.2.trans hy.2.symm⟩
  · have := (ZMod.intCast_eq_intCast_iff x.u y.u n.toNat).mp hu
    have hxu : x.u % ((n.toNat : ℕ) : Int) = x.u :=
      Int.emod_eq_of_lt rx.1 (by rw [hm]; exact hx.2 ▸ rx.2.1)
    have hyu : y.u % ((n.toNat : ℕ) : Int) = y.u :=
      Int.emod_eq_of_lt ry.1 (by rw [hm]; exact hy.2 ▸ ry.2.1)
    rw [Int.ModEq] at this
    rw [← hxu, ← hyu]
    exact this
  · have := (ZMod.intCast_eq_intCast_iff x.v y.v n.toNat).mp hv
    have hxv : x.v % ((n.toNat : ℕ) : Int) = x.v :=
      Int.emod_eq_of_lt rx.2.2.1 (by rw [hm]; exact hx.2 ▸ rx.2.2.2)
    have hyv : y.v % ((n.toNat : ℕ) : Int) = y.v :=
      Int.emod_eq_of_lt ry.2.2.1 (by rw [hm]; exact hy.2 ▸ ry.2.2.2)
    rw [Int.ModEq] at this
    rw [← hxv, ← hyv]
    exact this

/-! ## Matrix-level invariants and the mat_pow correctness lemma -/

/-- All four entries of a matrix carry the parameters c and n. -/
def PM (c n : Int) (A : Mat2 QuadraticFieldElement) : Prop :=
  Pq c n A.a ∧ Pq c n A.b ∧ Pq c n A.c ∧ Pq c n A.d

/-- All four entries of a matrix are canonically reduced. -/
def RM (A : Mat2 QuadraticFieldElement) : Prop :=
  Reduced A.a ∧ Reduced A.b ∧ Reduced A.c ∧ Reduced A.d

instance (c n : Int) (A : Mat2 QuadraticFieldElement) : Decidable (PM c n A) :=
  inferInstanceAs (Decidable (_ ∧ _ ∧ _ ∧ _))

instance (A : Mat2 QuadraticFieldElement) : Decidable (RM A) :=
  inferInstanceAs (Decidable (_ ∧ _ ∧ _ ∧ _))

lemma Pq_add {c n : Int} {x : QuadraticFieldElement}
    (y : QuadraticFieldElement) (h : Pq c n x) : Pq c n (x + y) := h

lemma Pq_mul {c n : Int} {x : QuadraticFieldElement}
    (y : QuadraticFieldElement) (h : Pq c n x) : Pq c n (x * y) := h

lemma Reduced_add {x : QuadraticFieldElement} (y : QuadraticFieldElement)
    (hx : 0 < x.n) : Reduced (x + y) :=
  make_reduced (x.u + y.u) (x.v + y.v) x.c x.n hx

lemma Reduced_mul {x : QuadraticFieldElement} (y : QuadraticFieldElement)
    (hx : 0 < x.n) : Reduced (x * y) :=
  make_reduced _ _ x.c x.n hx

lemma PM_mul {c n : Int} {A : Mat2 QuadraticFieldElement}
    (B : Mat2 QuadraticFieldElement) (h : PM c n A) : PM c n (A * B) :=
  ⟨Pq_add _ (Pq_mul _ h.1), Pq_add _ (Pq_mul _ h.1),
   Pq_add _ (Pq_mul _ h.2.2.1), Pq_add _ (Pq_mul _ h.2.2.1)⟩

lemma RM_mul {c n : Int} {A : Mat2 QuadraticFieldElement}
    (B : Mat2 QuadraticFieldElement) (h : PM c n A) (hn : 0 < n) :
    RM (A * B) := by
  have h1 : 0 < (A.a * B.a).n := by
    show 0 < A.a.n
    rw [h.1.2]; exact hn
  have h2 : 0 < (A.a * B.b).n := by
    show 0 < A.a.n
    rw [h.1.2]; exact hn
  have h3 : 0 < (A.c * B.a).n := by
    show 0 < A.c.n
    rw [h.2.2.1.2]; exact hn
  have h4 : 0 < (A.c * B.b).n := by
    show 0 < A.c.n
    rw [h.2.2.1.2]; exact hn
  exact ⟨Reduced_add _ h1, Reduced_add _ h2, Reduced_add _ h3, Reduced_add _ h4⟩

/-- The identity matrix over the field with parameters c and n: the
accumulator demanded by the specification of the matrix engine. -/
def matId (c n : Int) : Mat2 QuadraticFieldElement :=
  ⟨.make 1 0 c n, .make 0 0 c n, .make 0 0 c n, .make 1 0 c n⟩

lemma PM_matId (c n : Int) : PM c n (matId c n) :=
  ⟨⟨rfl, rfl⟩, ⟨rfl, rfl⟩, ⟨rfl, rfl⟩, ⟨rfl, rfl⟩⟩

lemma RM_matId (c n : Int) (hn : 0 < n) : RM (matId c n) :=
  ⟨make_reduced _ _ _ _ hn, make_reduced _ _ _ _ hn,
   make_reduced _ _ _ _ hn, make_reduced _ _ _ _ hn⟩

/-- Entrywise class of a field matrix in the ZMod pair model. -/
def mat2QP (c n : Int) (A : Mat2 QuadraticFieldElement) :
    Mat2 (QP n.toNat ((c : Int) : ZMod n.toNat)) :=
  ⟨qpOf c n A.a, qpOf c n A.b, qpOf c n A.c, qpOf c n A.d⟩

lemma mat2QP_mul {c n : Int} (hn : 0 ≤ n) {A : Mat2 QuadraticFieldElement}
    (B : Mat2 QuadraticFieldElement) (h : PM c n A) :
    mat2QP c n (A * B) = mat2QP c n A * mat2QP c n B := by
  rw [Mat2.entries_eq_iff]
  refine ⟨?_, ?_, ?_, ?_⟩ <;>
    simp only [mat2QP, Mat2.mul_a, Mat2.mul_b, Mat2.mul_c, Mat2.mul_d] <;>
    rw [qpOf_add c n hn _ _ (by first
      | exact h.1.2
      | exact h.2.2.1.2)] <;>
    rw [qpOf_mul c n hn _ _ (by first
        | exact h.1.2
        | exact h.2.2.1.2) (by first
        | exact h.1.1
        | exact h.2.2.1.1),
      qpOf_mul c n hn _ _ (by first
        | exact h.2.1.2
        | exact h.2.2.2.2) (by first
        | exact h.2.1.1
        | exact h.2.2.2.1)]

lemma mat2QP_matId {c n : Int} (hn : 0 ≤ n) : mat2QP c n (matId c n) = 1 := by
  rw [Mat2.entries_eq_iff]
  refine ⟨?_, ?_, ?_, ?_⟩ <;>
    simp only [mat2QP, matId, qpOf_make _ _ _ _ hn] <;>
    rw [QP.ext_iff] <;> constructor <;> simp

/-- Two field matrices with the same parameters, both reduced, and the
same class matrix are equal. -/
lemma mat2QP_inj {c n : Int} (hn : 0 < n) {A B : Mat2 QuadraticFieldElement}
    (hA : PM c n A) (hB : PM c n B) (rA : RM A) (rB : RM B)
    (h : mat2QP c n A = mat2QP c n B) : A = B := by
  rw [Mat2.entries_eq_iff] at h ⊢
  exact ⟨qpOf_inj c n hn _ _ hA.1 hB.1 rA.1 rB.1 h.1,
    qpOf_inj c n hn _ _ hA.2.1 hB.2.1 rA.2.1 rB.2.1 h.2.1,
    qpOf_inj c n hn _ _ hA.2.2.1 hB.2.2.1 rA.2.2.1 rB.2.2.1 h.2.2.1,
    qpOf_inj c n hn _ _ hA.2.2.2 hB.2.2.2 rA.2.2.2 rB.2.2.2 h.2.2.2⟩

/-- One unfolding of the loop in the running case. -/
lemma mat_pow_go_step {α : Type} [Add α] [Mul α]
    (base result : Mat2 α) (e : Int) (hpos : 0 < e) :
    mat_pow_go base result e
      = mat_pow_go (mat_mul base base)
          (if e % 2 = 1 then mat_mul base result else result) (e / 2) := by
  rw [mat_pow_go]
  simp [hpos]

/-- One unfolding of the loop in the stopping case. -/
lemma mat_pow_go_stop {α : Type} [Add α] [Mul α]
    (base result : Mat2 α) (e : Int) (hpos : ¬ 0 < e) :
    mat_pow_go base result e = result := by
  rw [mat_pow_go]
  simp [hpos]

/-- The square-and-multiply loop preserves parameters and reduction and
commutes with the class map. -/
lemma mat_pow_go_props (c n : Int) (hn : 0 < n) (e : Int)
    (base result : Mat2 QuadraticFieldElement)
    (hb : PM c n base) (hr : PM c n result) (hrR : RM result) :
    PM c n (mat_pow_go base result e) ∧ RM (mat_pow_go base result e) ∧
    mat2QP c n (mat_pow_go base result e)
      = mat_pow_go (mat2QP c n base) (mat2QP c n result) e := by
  generalize hk : e.toNat = k
  induction k using Nat.strong_induction_on generalizing base result e with
  | _ k ih =>
    by_cases hpos : 0 < e
    · have hk2 : (e / 2).toNat < k := by omega
      have hb' : PM c n (mat_mul base base) := PM_mul base hb
      have hr' : PM c n (if e % 2 = 1 then mat_mul base result else result) := by
        split
        · exact PM_mul result hb
        · exact hr
      have hrR' : RM (if e % 2 = 1 then mat_mul base result else result) := by
        split
        · exact RM_mul result hb hn
        · exact hrR
      have hrec := ih _ hk2 (e / 2) (mat_mul base base) _ hb' hr' hrR' rfl
      rw [mat_pow_go_step base result e hpos,
        mat_pow_go_step (mat2QP c n base) (mat2QP c n result) e hpos]
      refine ⟨hrec.1, hrec.2.1, ?_⟩
      rw [hrec.2.2]
      have hmm : mat2QP c n (mat_mul base base)
          = mat_mul (mat2QP c n base) (mat2QP c n base) := by
        rw [mat_mul_eq, mat_mul_eq, mat2QP_mul hn.le base hb]
      have hmr : mat2QP c n (if e % 2 = 1 then mat_mul base result else result)
          = (if e % 2 = 1 then mat_mul (mat2QP c n base) (mat2QP c n result)
             else mat2QP c n result) := by
        split
        · rw [mat_mul_eq, mat_mul_eq, mat2QP_mul hn.le result hb]
        · rfl
      rw [hmm, hmr]
    · rw [mat_pow_go_stop base result e hpos,
        mat_pow_go_stop (mat2QP c n base) (mat2QP c n result) e hpos]
      exact ⟨hr, hrR, rfl⟩

/-- Plain iterated product: the e-th power of M with a given identity
matrix as the starting point, multiplying M in from the left. -/
def matNpow (I M : Mat2 QuadraticFieldElement) : ℕ → Mat2 QuadraticFieldElement
  | 0 => I
  | k + 1 => mat_mul M (matNpow I M k)

lemma matNpow_props (c n : Int) (hn : 0 < n)
    (M : Mat2 QuadraticFieldElement) (hM : PM c n M) (k : ℕ) :
    PM c n (matNpow (matId c n) M k) ∧ RM (matNpow (matId c n) M k) ∧
    mat2QP c n (matNpow (matId c n) M k) = (mat2QP c n M) ^ k := by
  induction k with
  | zero =>
    exact ⟨PM_matId c n, RM_matId c n hn, by rw [matNpow, mat2QP_matId hn.le, pow_zero]⟩
  | succ k ih =>
    refine ⟨?_, ?_, ?_⟩
    · rw [matNpow, mat_mul_eq]
      exact PM_mul _ hM
    · rw [matNpow, mat_mul_eq]
      exact RM_mul _ hM hn
    · rw [matNpow, mat_mul_eq, mat2QP_mul hn.le _ hM, ih.2.2, ← pow_succ']

/-- mat_pow agrees with the plain iterated product started at the
identity matrix of the common parameters, for every matrix whose
entries share those parameters. -/
lemma mat_pow_eq_npow (c n e : Int) (hn : 0 < n)
    (M : Mat2 QuadraticFieldElement) (hM : PM c n M) (he : 0 ≤ e) :
    mat_pow M e = matNpow (matId c n) M e.toNat := by
  have hid : (⟨.make 1 0 M.a.c M.a.n, .make 0 0 M.a.c M.a.n,
      .make 0 0 M.a.c M.a.n, .make 1 0 M.a.c M.a.n⟩ :
        Mat2 QuadraticFieldElement) = matId c n := by
    rw [hM.1.1, hM.1.2]; rfl
  unfold mat_pow
  rw [hid]
  obtain ⟨hPM1, hRM1, hmap1⟩ := mat_pow_go_props c n hn e M (matId c n)
    hM (PM_matId c n) (RM_matId c n hn)
  obtain ⟨hPM2, hRM2, hmap2⟩ := matNpow_props c n hn M hM e.toNat
  refine mat2QP_inj hn hPM1 hPM2 hRM1 hRM2 ?_
  rw [hmap1, hmap2, mat_pow_go_pow e _ _ he, mat2QP_matId hn.le, mul_one]

/-! ## Integer matrix power and the scalar/field bridge -/

lemma mat_pow_int_eq_pow (M : Mat2 Int) (e : Int) (he : 0 ≤ e) :
    mat_pow_int M e = M ^ e.toNat := by
  unfold mat_pow_int
  have h1 : (⟨1, 0, 0, 1⟩ : Mat2 Int) = 1 := rfl
  rw [h1, mat_pow_go_pow e M 1 he, mul_one]

/-- The class in the pair model of a plain integer scalar. -/
def qpOfInt (c n : Int) (x : Int) : QP n.toNat ((c : Int) : ZMod n.toNat) :=
  ⟨(x : ZMod n.toNat), 0⟩

lemma qpOfInt_add (c n x y : Int) :
    qpOfInt c n (x + y) = qpOfInt c n x + qpOfInt c n y := by
  rw [QP.ext_iff]
  constructor
  · simp only [qpOfInt, QP.add_u]
    push_cast
    ring
  · simp only [qpOfInt, QP.add_v, add_zero]

lemma qpOfInt_mul (c n x y : Int) :
    qpOfInt c n (x * y) = qpOfInt c n x * qpOfInt c n y := by
  rw [QP.ext_iff]
  constructor
  · simp only [qpOfInt, QP.mul_u]
    push_cast
    ring
  · simp only [qpOfInt, QP.mul_v]
    ring

/-- Entrywise class of an integer matrix in the pair model. -/
def mat2OfInt (c n : Int) (A : Mat2 Int) :
    Mat2 (QP n.toNat ((c : Int) : ZMod n.toNat)) :=
  ⟨qpOfInt c n A.a, qpOfInt c n A.b, qpOfInt c n A.c, qpOfInt c n A.d⟩

lemma mat2OfInt_mul (c n : Int) (A B : Mat2 Int) :
    mat2OfInt c n (A * B) = mat2OfInt c n A * mat2OfInt c n B := by
  rw [Mat2.entries_eq_iff]
  refine ⟨?_, ?_, ?_, ?_⟩ <;>
    simp only [mat2OfInt, Mat2.mul_a, Mat2.mul_b, Mat2.mul_c, Mat2.mul_d,
      qpOfInt_add, qpOfInt_mul]

lemma mat2OfInt_one (c n : Int) : mat2OfInt c n 1 = 1 := by
  rw [Mat2.entries_eq_iff]
  refine ⟨?_, ?_, ?_, ?_⟩ <;> rw [QP.ext_iff] <;> constructor <;>
    simp [mat2OfInt, qpOfInt]

lemma mat2OfInt_pow (c n : Int) (A : Mat2 Int) (k : ℕ) :
    mat2OfInt c n (A ^ k) = (mat2OfInt c n A) ^ k := by
  induction k with
  | zero => rw [pow_zero, pow_zero, mat2OfInt_one]
  | succ k ih => rw [pow_succ, pow_succ, mat2OfInt_mul, ih]

/-- The re-expression of an integer matrix over the quadratic field
with parameters (c, n): each entry becomes the field element with that
value as first component and zero second component. -/
def toFieldMat (c n : Int) (M : Mat2 Int) : Mat2 QuadraticFieldElement :=
  ⟨.make M.a 0 c n, .make M.b 0 c n, .make M.c 0 c n, .make M.d 0 c n⟩

lemma PM_toFieldMat (c n : Int) (M : Mat2 Int) : PM c n (toFieldMat c n M) :=
  ⟨⟨rfl, rfl⟩, ⟨rfl, rfl⟩, ⟨rfl, rfl⟩, ⟨rfl, rfl⟩⟩

lemma RM_toFieldMat (c n : Int) (M : Mat2 Int) (hn : 0 < n) :
    RM (toFieldMat c n M) :=
  ⟨make_reduced _ _ _ _ hn, make_reduced _ _ _ _ hn,
   make_reduced _ _ _ _ hn, make_reduced _ _ _ _ hn⟩

lemma mat2QP_toFieldMat (c n : Int) (hn : 0 ≤ n) (M : Mat2 Int) :
    mat2QP c n (toFieldMat c n M) = mat2OfInt c n M := by
  rw [Mat2.entries_eq_iff]
  refine ⟨?_, ?_, ?_, ?_⟩ <;>
    simp only [mat2QP, toFieldMat, mat2OfInt, qpOf_make _ _ _ _ hn] <;>
    rw [QP.ext_iff] <;> exact ⟨rfl, by simp [qpOfInt]⟩

/-! ## The specified form of the primality test -/

/-- Modelled from the spec: step 4 to step 7 of the primality engine
contract.  Build the companion matrix [[2a, -1], [1, 0]] over the field
with parameters (c, n) (with a = 1 + sqrt(c), its doubling is the
element 2 + 2 sqrt(c)), raise it to the n-th power by plain iterated
multiplication starting at the identity of those parameters, apply to
the vector (a, 1), and compare the second component with the field
element 1 - sqrt(c). -/
def chebyshev_test_spec (c n : Int) : Bool :=
  decide
    ((mat_vec
        (matNpow (matId c n)
          ⟨.make 2 2 c n, .make (-1) 0 c n, .make 1 0 c n, .make 0 0 c n⟩
          n.toNat)
        (QuadraticFieldElement.make 1 0 c n + sqrtc c n)
        (.make 1 0 c n)).2
      = QuadraticFieldElement.make 1 0 c n - sqrtc c n)

/-- Modelled from the spec: the full isPrime algorithm of section 4.5,
with the same fuel discipline for the non-residue search as the
embedded source. -/
def is_prime_spec (fuel : ℕ) (n : Int) : Option Bool :=
  if n < 2 then some false
  else if n = 2 then some true
  else if n % 2 = 0 then some false
  else if is_square n then some false
  else
    match oddprime n fuel with
    | none => none
    | some p => some (chebyshev_test_spec (p : Int) n)

lemma fmod_of_lt (a n : Int) (h0 : 0 ≤ a) (h1 : a < n) : Int.fmod a n = a := by
  rw [Int.fmod_eq_emod a (by omega)]
  exact Int.emod_eq_of_lt h0 h1

lemma fmod_neg_one (n : Int) (hn : 1 ≤ n) : Int.fmod (-1) n = n - 1 := by
  rw [Int.fmod_eq_emod _ (by omega)]
  calc (-1 : Int) % n = (-1 + n * 1) % n := (Int.add_mul_emod_self_left (-1) n 1).symm
    _ = (n - 1) % n := by ring_nf
    _ = n - 1 := Int.emod_eq_of_lt (by omega) (by omega)

lemma spec_a_eq (c n : Int) (hn : 3 ≤ n) :
    QuadraticFieldElement.make 1 0 c n + sqrtc c n
      = QuadraticFieldElement.make 1 1 c n := by
  rw [QuadraticFieldElement.add_def]
  simp only [sqrtc, QuadraticFieldElement.make_u, QuadraticFieldElement.make_v,
    QuadraticFieldElement.make_c, QuadraticFieldElement.make_n]
  rw [fmod_of_lt 1 n (by omega) (by omega), fmod_of_lt 0 n (by omega) (by omega)]
  norm_num

lemma two_a_eq (c n : Int) (hn : 3 ≤ n) :
    QuadraticFieldElement.make 1 1 c n + QuadraticFieldElement.make 1 1 c n
      = QuadraticFieldElement.make 2 2 c n := by
  rw [QuadraticFieldElement.add_def]
  simp only [QuadraticFieldElement.make_u, QuadraticFieldElement.make_v,
    QuadraticFieldElement.make_c, QuadraticFieldElement.make_n]
  rw [fmod_of_lt 1 n (by omega) (by omega)]
  norm_num

lemma target_eq (c n : Int) (hn : 3 ≤ n) :
    QuadraticFieldElement.make 1 0 c n - sqrtc c n
      = QuadraticFieldElement.make 1 (-1) c n := by
  rw [QuadraticFieldElement.sub_def, QuadraticFieldElement.neg_def,
    QuadraticFieldElement.add_def]
  rw [QuadraticFieldElement.fields_eq_iff]
  refine ⟨?_, ?_, rfl, rfl⟩ <;>
    simp only [sqrtc, QuadraticFieldElement.make_u, QuadraticFieldElement.make_v,
      QuadraticFieldElement.make_c, QuadraticFieldElement.make_n]
  · rw [fmod_of_lt 0 n (by omega) (by omega), fmod_of_lt 1 n (by omega) (by omega)]
    rw [neg_zero, Int.zero_fmod, add_zero, fmod_of_lt 1 n (by omega) (by omega)]
  · rw [fmod_of_lt 0 n (by omega) (by omega), fmod_of_lt 1 n (by omega) (by omega)]
    rw [zero_add, fmod_neg_one n (by omega), fmod_of_lt (n - 1) n (by omega) (by omega)]

lemma xmat_eq (c n : Int) (hn : 3 ≤ n) :
    xmat n (.make 1 1 c n)
      = ⟨.make 2 2 c n, .make (-1) 0 c n, .make 1 0 c n, .make 0 0 c n⟩ := by
  unfold xmat
  rw [Mat2.entries_eq_iff]
  exact ⟨two_a_eq c n hn, rfl, rfl, rfl⟩

lemma PM_companion (c n : Int) :
    PM c n (⟨.make 2 2 c n, .make (-1) 0 c n, .make 1 0 c n,
      .make 0 0 c n⟩ : Mat2 QuadraticFieldElement) :=
  ⟨⟨rfl, rfl⟩, ⟨rfl, rfl⟩, ⟨rfl, rfl⟩, ⟨rfl, rfl⟩⟩

/-- The source test at a = 1 + sqrt(c) coincides with the specified
form of the test. -/
lemma myisprime_eq_spec (c n : Int) (hn : 3 ≤ n) :
    myisprime n (.make 1 1 c n) = chebyshev_test_spec c n := by
  have hsrc : myisprime n (.make 1 1 c n)
      = decide ((mat_vec (mat_pow (xmat n (.make 1 1 c n)) n)
          (QuadraticFieldElement.make 1 1 c n)
          (.make 1 0 c n)).2
        = QuadraticFieldElement.make 1 (-1) c n) := rfl
  rw [hsrc, xmat_eq c n hn,
    mat_pow_eq_npow c n n (by omega) _ (PM_companion c n) (by omega),
    ← spec_a_eq c n hn, ← target_eq c n hn]
  rfl

/-! ## Claims about the primality engine and matrix engine -/

/-- C1.  For every integer n and every search fuel, is_prime follows
the specified algorithm: false below 2, true at 2, false on larger
evens and on perfect squares, and otherwise — when the non-residue
search returns c — true exactly when the second component of the
companion-matrix power applied to (a, 1), with a = 1 + sqrt(c), equals
the field element 1 - sqrt(c) modulo n. -/
theorem c1_is_prime_follows_algorithm (fuel : ℕ) (n : Int) :
    is_prime fuel n = is_prime_spec fuel n := by
  unfold is_prime is_prime_spec
  rw [Int.fmod_eq_emod n (by norm_num : (0 : Int) ≤ 2)]
  by_cases h1 : n < 2
  · simp [h1]
  by_cases h2 : n = 2
  · simp [h1, h2]
  by_cases h3 : n % 2 = 0
  · simp [h1, h2, h3]
  by_cases h4 : is_square n = true
  · simp [h1, h2, h3, h4]
  simp only [if_neg h1, if_neg h2, if_neg h3, if_neg h4]
  cases ho : oddprime n fuel with
  | none => rfl
  | some p =>
    show some (myisprime n (.make 1 1 (p : Int) n))
      = some (chebyshev_test_spec (p : Int) n)
    rw [myisprime_eq_spec (p : Int) n (by omega)]

/-- C3.  The matrix engine computes the e-th power for every
non-negative exponent: on integer matrices it equals the monoid power
with the accumulator starting at [[1,0],[0,1]], and on field matrices
whose entries all carry the common parameters (c, n) with positive
modulus it equals the plain iterated product started at the identity
matrix built from those parameters. -/
theorem c3_matrix_power_square_and_multiply :
    (∀ (M : Mat2 Int) (e : Int), 0 ≤ e → mat_pow_int M e = M ^ e.toNat) ∧
    (∀ (c n e : Int) (M : Mat2 QuadraticFieldElement),
      0 < n → PM c n M → 0 ≤ e →
      mat_pow M e = matNpow (matId c n) M e.toNat) :=
  ⟨mat_pow_int_eq_pow,
   fun c n e M hn hM he => mat_pow_eq_npow c n e hn M hM he⟩

/-- C3, witness at an integer matrix with exponent 3 and at the field
companion matrix of 1 + sqrt(2) modulo 5 with exponent 3. -/
theorem c3_witness :
    ((0 : Int) ≤ 3 ∧
      mat_pow_int ⟨1, 2, 3, 4⟩ 3 = (⟨1, 2, 3, 4⟩ : Mat2 Int) ^ (3 : Int).toNat) ∧
    ((0 : Int) < 5 ∧ PM 2 5 (xmat 5 (.make 1 1 2 5)) ∧ (0 : Int) ≤ 3 ∧
      mat_pow (xmat 5 (.make 1 1 2 5)) 3
        = matNpow (matId 2 5) (xmat 5 (.make 1 1 2 5)) (3 : Int).toNat) :=
  ⟨⟨by decide, c3_matrix_power_square_and_multiply.1 ⟨1, 2, 3, 4⟩ 3 (by decide)⟩,
   ⟨by decide, by decide, by decide,
    c3_matrix_power_square_and_multiply.2 2 5 3 (xmat 5 (.make 1 1 2 5))
      (by decide) (by decide) (by decide)⟩⟩

/-- C10.  At exponent zero the matrix engine returns the multiplicative
identity matrix of the matching element kind no matter what the base
matrix holds: the literal [[1,0],[0,1]] for integer matrices, and the
identity built over the common parameters for field matrices. -/
theorem c10_power_zero_identity :
    (∀ M : Mat2 Int, mat_pow_int M 0 = 1) ∧
    (∀ (c n : Int) (M : Mat2 QuadraticFieldElement), PM c n M →
      mat_pow M 0 = matId c n) := by
  constructor
  · intro M
    unfold mat_pow_int
    exact mat_pow_go_stop M ⟨1, 0, 0, 1⟩ 0 (by norm_num)
  · intro c n M hM
    unfold mat_pow
    rw [mat_pow_go_stop _ _ 0 (by norm_num), hM.1.1, hM.1.2]
    rfl

/-- C10, witness at a field matrix that is not the identity. -/
theorem c10_witness :
    PM 3 7 (xmat 7 (.make 1 1 3 7)) ∧
    mat_pow (xmat 7 (.make 1 1 3 7)) 0 = matId 3 7 :=
  ⟨by decide, c10_power_zero_identity.2 3 7 (xmat 7 (.make 1 1 3 7)) (by decide)⟩

/-- C8.  With a positive modulus, construction and the four arithmetic
operations (between elements carrying equal parameters, as the source
asserts) always produce elements whose two components are canonically
reduced into [0, n). -/
theorem c8_components_reduced :
    (∀ u v c n : Int, 0 < n → Reduced (QuadraticFieldElement.make u v c n)) ∧
    (∀ x y : QuadraticFieldElement, 0 < x.n → y.c = x.c → y.n = x.n →
      Reduced (x + y) ∧ Reduced (x - y) ∧ Reduced (x * y)) ∧
    (∀ x : QuadraticFieldElement, 0 < x.n → Reduced (-x)) := by
  refine ⟨make_reduced, ?_, ?_⟩
  · intro x y hx _ _
    exact ⟨Reduced_add y hx, Reduced_add (-y) hx, Reduced_mul y hx⟩
  · intro x hx
    exact make_reduced _ _ _ _ hx

/-- C8, witness at concrete elements modulo 5. -/
theorem c8_witness :
    ((0 : Int) < 5 ∧ Reduced (QuadraticFieldElement.make 7 (-3) 2 5)) ∧
    ((0 : Int) < (QuadraticFieldElement.make 3 4 2 5).n ∧
      (QuadraticFieldElement.make 1 2 2 5).c = (QuadraticFieldElement.make 3 4 2 5).c ∧
      (QuadraticFieldElement.make 1 2 2 5).n = (QuadraticFieldElement.make 3 4 2 5).n ∧
      Reduced (QuadraticFieldElement.make 3 4 2 5 + QuadraticFieldElement.make 1 2 2 5) ∧
      Reduced (QuadraticFieldElement.make 3 4 2 5 - QuadraticFieldElement.make 1 2 2 5) ∧
      Reduced (QuadraticFieldElement.make 3 4 2 5 * QuadraticFieldElement.make 1 2 2 5)) ∧
    ((0 : Int) < (QuadraticFieldElement.make 3 4 2 5).n ∧
      Reduced (-(QuadraticFieldElement.make 3 4 2 5))) := by
  have hops := c8_components_reduced.2.1 (QuadraticFieldElement.make 3 4 2 5)
    (QuadraticFieldElement.make 1 2 2 5) (by decide) (by decide) (by decide)
  exact ⟨⟨by decide, c8_components_reduced.1 7 (-3) 2 5 (by decide)⟩,
    ⟨by decide, by decide, by decide, hops.1, hops.2.1, hops.2.2⟩,
    ⟨by decide, c8_components_reduced.2.2 (QuadraticFieldElement.make 3 4 2 5) (by decide)⟩⟩

/-- C6.  For every integer 2x2 matrix, positive modulus, any c, and
every non-negative exponent, the field-element power of the matrix
re-expressed with v = 0 components equals the re-expression of the
plain integer power: the scalar and field runs of the engine agree
componentwise once the integer entries are reduced modulo n. -/
theorem c6_scalar_field_consistency (M : Mat2 Int) (c n e : Int)
    (hn : 0 < n) (he : 0 ≤ e) :
    mat_pow (toFieldMat c n M) e = toFieldMat c n (mat_pow_int M e) := by
  obtain ⟨hPM1, hRM1, hmap1⟩ := mat_pow_go_props c n hn e (toFieldMat c n M)
    (matId c n) (PM_toFieldMat c n M) (PM_matId c n) (RM_matId c n hn)
  refine mat2QP_inj hn hPM1 (PM_toFieldMat c n _) hRM1
    (RM_toFieldMat c n _ hn) ?_
  have hunf : mat_pow (toFieldMat c n M) e
      = mat_pow_go (toFieldMat c n M) (matId c n) e := rfl
  rw [hunf, hmap1, mat_pow_go_pow e _ _ he, mat2QP_matId hn.le, mul_one,
    mat2QP_toFieldMat c n hn.le, mat2QP_toFieldMat c n hn.le,
    mat_pow_int_eq_pow M e he, mat2OfInt_pow]

/-- C6, witness at the matrix [[1,2],[3,4]] modulo 5 with c = 2 and
exponent 3. -/
theorem c6_witness :
    (0 : Int) < 5 ∧ (0 : Int) ≤ 3 ∧
    mat_pow (toFieldMat 2 5 ⟨1, 2, 3, 4⟩) 3
      = toFieldMat 2 5 (mat_pow_int ⟨1, 2, 3, 4⟩ 3) :=
  ⟨by decide, by decide,
   c6_scalar_field_consistency ⟨1, 2, 3, 4⟩ 2 5 3 (by decide) (by decide)⟩

/-! ## The non-residue search -/

/-- The bounded scan returns the least prime at or above its start
whenever the fuel window contains a prime. -/
lemma findPrimeAbove_spec (fuel start : ℕ)
    (h : ∃ q, Nat.Prime q ∧ start ≤ q ∧ q < start + fuel) :
    Nat.Prime (findPrimeAbove start fuel) ∧
    start ≤ findPrimeAbove start fuel ∧
    ∀ r, Nat.Prime r → start ≤ r → findPrimeAbove start fuel ≤ r := by
  induction fuel generalizing start with
  | zero =>
    obtain ⟨q, _, h1, h2⟩ := h
    omega
  | succ fuel ih =>
    by_cases hs : Nat.Prime start
    · simp only [findPrimeAbove, if_pos hs]
      exact ⟨hs, le_refl _, fun r _ hr => hr⟩
    · simp only [findPrimeAbove, if_neg hs]
      have h' : ∃ q, Nat.Prime q ∧ start + 1 ≤ q ∧ q < start + 1 + fuel := by
        obtain ⟨q, hq, h1, h2⟩ := h
        have hne : q ≠ start := fun he => hs (he ▸ hq)
        exact ⟨q, hq, by omega, by omega⟩
      obtain ⟨hp, hge, hmin⟩ := ih (start + 1) h'
      refine ⟨hp, by omega, fun r hr hr2 => ?_⟩
      have hrne : r ≠ start := fun he => hs (he ▸ hr)
      exact hmin r hr (by omega)

/-- The modelled nextprime is the least prime strictly above its
argument; the fuel suffices by the Bertrand prime bound. -/
lemma nextprime_spec (p : ℕ) :
    Nat.Prime (nextprime p) ∧ p < nextprime p ∧
    ∀ r, Nat.Prime r → p < r → nextprime p ≤ r := by
  have hex : ∃ q, Nat.Prime q ∧ p + 1 ≤ q ∧ q < p + 1 + (p + 3) := by
    obtain ⟨q, hq, h1, h2⟩ := Nat.exists_prime_lt_and_le_two_mul (p + 1) (by omega)
    exact ⟨q, hq, by omega, by omega⟩
  obtain ⟨h1, h2, h3⟩ := findPrimeAbove_spec (p + 3) (p + 1) hex
  refine ⟨h1, ?_, fun r hr hpr => h3 r hr (by omega)⟩
  show p < findPrimeAbove (p + 1) (p + 3)
  omega

/-- Invariant of the non-residue loop: starting at an odd prime p at
most the known witness p₀, with no smaller odd prime having symbol -1,
enough fuel returns the least odd prime whose Kronecker symbol
relative to n is -1. -/
lemma oddprime_go_spec (n : Int) (p₀ : ℕ) (hp₀ : Nat.Prime p₀)
    (hodd₀ : p₀ % 2 = 1) (hk₀ : kronecker_symbol (p₀ : Int) n = -1) :
    ∀ (fuel p : ℕ), Nat.Prime p → 3 ≤ p → p ≤ p₀ →
      (∀ q : ℕ, Nat.Prime q → q % 2 = 1 → q < p →
        kronecker_symbol (q : Int) n ≠ -1) →
      p₀ + 1 - p ≤ fuel →
      ∃ r : ℕ, oddprime_go n p fuel = some r ∧ Nat.Prime r ∧ r % 2 = 1 ∧
        kronecker_symbol (r : Int) n = -1 ∧
        ∀ q : ℕ, Nat.Prime q → q % 2 = 1 →
          kronecker_symbol (q : Int) n = -1 → r ≤ q := by
  intro fuel
  induction fuel with
  | zero =>
    intro p _ _ hle _ hfuel
    omega
  | succ fuel ih =>
    intro p hp h3 hle hmin hfuel
    by_cases hk : kronecker_symbol (p : Int) n = -1
    · refine ⟨p, ?_, hp, ?_, hk, ?_⟩
      · simp only [oddprime_go, if_pos hk]
      · have : p ≠ 2 := by omega
        have := hp.eq_one_or_self_of_dvd 2
        omega
      · intro q hq hqo hqk
        by_contra hcon
        exact hmin q hq hqo (by omega) hqk
    · have hstep : oddprime_go n p (fuel + 1) = oddprime_go n (nextprime p) fuel := by
        simp only [oddprime_go, if_neg hk]
      rw [hstep]
      obtain ⟨hnp, hlt, hmin'⟩ := nextprime_spec p
      have hpplt : p < p₀ := by
        rcases Nat.eq_or_lt_of_le hle with he | h
        · exact absurd (he ▸ hk₀) hk
        · exact h
      have hle' : nextprime p ≤ p₀ := hmin' p₀ hp₀ hpplt
      have hmin2 : ∀ q : ℕ, Nat.Prime q → q % 2 = 1 → q < nextprime p →
          kronecker_symbol (q : Int) n ≠ -1 := by
        intro q hq hqo hql
        rcases Nat.lt_or_ge q p with hlt2 | hge
        · exact hmin q hq hqo hlt2
        · have hnotgt : ¬ (p < q) := fun hgt => absurd (hmin' q hq hgt) (by omega)
          have hqp : q = p := by omega
          rw [hqp]
          exact hk
      exact ih (nextprime p) hnp (by omega) hle' hmin2 (by omega)

/-- C5.  Whenever some odd prime has Kronecker symbol -1 relative to n,
the non-residue search terminates (with fuel at least that prime) and
returns the smallest odd prime whose Kronecker symbol relative to n is
-1, by its upward scan over odd primes from 3. -/
theorem c5_oddprime_least_nonresidue (n : Int) (p₀ : ℕ)
    (hp₀ : Nat.Prime p₀) (hodd₀ : p₀ % 2 = 1)
    (hk₀ : kronecker_symbol (p₀ : Int) n = -1) :
    ∃ r : ℕ, (∀ fuel : ℕ, p₀ ≤ fuel → oddprime n fuel = some r) ∧
      Nat.Prime r ∧ r % 2 = 1 ∧ kronecker_symbol (r : Int) n = -1 ∧
      ∀ q : ℕ, Nat.Prime q → q % 2 = 1 →
        kronecker_symbol (q : Int) n = -1 → r ≤ q := by
  have h2 : 2 ≤ p₀ := hp₀.two_le
  have h3 : 3 ≤ p₀ := by omega
  have hbase : ∀ q : ℕ, Nat.Prime q → q % 2 = 1 → q < 3 →
      kronecker_symbol (q : Int) n ≠ -1 := by
    intro q hq hqo hql
    have := hq.two_le
    omega
  obtain ⟨r, hre, hrp, hro, hrk, hrmin⟩ := oddprime_go_spec n p₀ hp₀ hodd₀ hk₀
    p₀ 3 (by norm_num) (by norm_num) h3 hbase (by omega)
  refine ⟨r, ?_, hrp, hro, hrk, hrmin⟩
  intro fuel hfuel
  obtain ⟨r', hre', hrp', hro', hrk', hrmin'⟩ := oddprime_go_spec n p₀ hp₀ hodd₀
    hk₀ fuel 3 (by norm_num) (by norm_num) h3 hbase (by omega)
  have hrr : r = r' :=
    le_antisymm (hrmin r' hrp' hro' hrk') (hrmin' r hrp hro hrk)
  unfold oddprime
  rw [hre', hrr]

/-- C5, witness at n = 3 with the odd prime 5 as the known
non-residue: the search returns 5 (the symbol of 3 relative to 3 is 0,
not -1). -/
theorem c5_witness :
    ∃ r : ℕ, (∀ fuel : ℕ, 5 ≤ fuel → oddprime 3 fuel = some r) ∧
      Nat.Prime r ∧ r % 2 = 1 ∧ kronecker_symbol (r : Int) 3 = -1 ∧
      ∀ q : ℕ, Nat.Prime q → q % 2 = 1 →
        kronecker_symbol (q : Int) 3 = -1 → r ≤ q := by
  have h3 : Nat.primeFactorsList 3 = [3] := Nat.primeFactorsList_prime (by norm_num)
  have hk : kronecker_symbol ((5 : ℕ) : Int) 3 = -1 := by
    unfold kronecker_symbol
    rw [show ((3 : Int)).natAbs = 3 from rfl, h3]
    decide
  exact c5_oddprime_least_nonresidue 3 5 (by norm_num) (by decide) hk

/-! ## Validation of the Kronecker model against Mathlib

On the domain the program exercises (an odd positive modulus), the
modelled kronecker_symbol provably coincides with the Jacobi symbol of
Mathlib, certifying the model. -/

lemma legendreOdd_eq_legendreSym (a : ℤ) (p : ℕ) (hp : Nat.Prime p) :
    legendreOdd a p = @legendreSym p ⟨hp⟩ a := by
  have hfact : Fact (Nat.Prime p) := ⟨hp⟩
  have hnz : NeZero p := ⟨hp.pos.ne.symm⟩
  rw [legendreSym, quadraticChar_apply, quadraticCharFun]
  unfold legendreOdd
  by_cases h0 : a % (p : ℤ) = 0
  · rw [if_pos h0, if_pos (by
      rw [ZMod.intCast_zmod_eq_zero_iff_dvd]
      exact Int.dvd_of_emod_eq_zero h0)]
  · have hz : ¬ ((a : ZMod p) = 0) := by
      rw [ZMod.intCast_zmod_eq_zero_iff_dvd]
      intro hd
      exact h0 (Int.emod_eq_zero_of_dvd hd)
    rw [if_neg h0, if_neg hz]
    by_cases hs : IsSquare ((a : ℤ) : ZMod p)
    · rw [if_pos hs]
      obtain ⟨r, hr⟩ := hs
      have hx : (List.range p).any
          (fun x => ((x * x : ℕ) : Int) % (p : Int) == a % (p : Int)) = true := by
        rw [List.any_eq_true]
        refine ⟨r.val, List.mem_range.mpr (ZMod.val_lt r), beq_iff_eq.mpr ?_⟩
        have hcast : (((r.val * r.val : ℕ) : ℤ) : ZMod p) = ((a : ℤ) : ZMod p) := by
          push_cast
          rw [ZMod.natCast_rightInverse r]
          exact hr.symm
        exact ((ZMod.intCast_eq_intCast_iff _ _ _).mp hcast)
      rw [if_pos hx]
    · rw [if_neg hs]
      have hx : ¬ ((List.range p).any
          (fun x => ((x * x : ℕ) : Int) % (p : Int) == a % (p : Int)) = true) := by
        rw [List.any_eq_true]
        rintro ⟨x, _, hbe⟩
        apply hs
        have hmod : ((x * x : ℕ) : ℤ) % (p : ℤ) = a % (p : ℤ) := beq_iff_eq.mp hbe
        have hcast : (((x * x : ℕ) : ℤ) : ZMod p) = ((a : ℤ) : ZMod p) :=
          (ZMod.intCast_eq_intCast_iff _ _ _).mpr hmod
        refine ⟨(x : ZMod p), ?_⟩
        rw [← hcast]
        push_cast
        ring
      rw [if_neg hx]

lemma prod_map_eq_pmap (a : ℤ) (l : List ℕ) (H : ∀ p ∈ l, Nat.Prime p)
    (H2 : ∀ p ∈ l, p ≠ 2) :
    (l.map (fun p => if p = 2 then kron2 a else legendreOdd a p)).prod
      = (l.pmap (fun p pp => @legendreSym p ⟨pp⟩ a) H).prod := by
  induction l with
  | nil => rfl
  | cons p l ih =>
    rw [List.map_cons, List.pmap, List.prod_cons, List.prod_cons]
    rw [if_neg (H2 p (List.mem_cons_self p l)),
      legendreOdd_eq_legendreSym a p (H p (List.mem_cons_self p l))]
    rw [ih (fun q hq => H q (List.mem_cons_of_mem p hq))
        (fun q hq => H2 q (List.mem_cons_of_mem p hq))]

lemma kronecker_eq_jacobiSym (a n : ℤ) (hn : 0 < n) (hodd : n % 2 = 1) :
    kronecker_symbol a n = jacobiSym a n.toNat := by
  unfold kronecker_symbol jacobiSym
  rw [if_neg (by omega : ¬ n = 0), if_neg (by omega : ¬ (n < 0 ∧ a < 0)), one_mul]
  have hna : n.natAbs = n.toNat := by omega
  rw [hna]
  apply prod_map_eq_pmap
  intro p hp
  intro h2
  have hdvd : p ∣ n.toNat := Nat.dvd_of_mem_primeFactorsList hp
  subst h2
  omega
